import Mathlib

/-!
Shallow embedding of `src/TrimReads.py` (Bio-Trimmer).

The program trims low-quality bases from the ends of FASTQ reads, either
base-by-base against a fixed threshold (`trim_sequence_base`) or by a
sliding-window mean (`trim_sequence_window`), and aggregates statistics
over a file (`process_fastq`).

Modelling conventions:
* A Biopython `SeqRecord` is a structure with `id`, `description`, the
  residue string `seq` (as `List Char`) and the parallel quality list
  `quals` (`letter_annotations["phred_quality"]`, as `List Int`).
* Python slices `xs[a:b]` become `pySlice xs a b = (xs.drop a).take (b - a)`.
* Python ints are `Int`; loop indices that provably stay non-negative are
  `Nat` (the base trimmer's right cursor can reach `-1`, so it is `Int`).
* Code that raises in Python (`ZeroDivisionError` for `window_size = 0`,
  `NameError` in `process_fastq` when neither threshold is given) is
  modelled by an `Option` result, `none` meaning the exception.
* The source compares `sum(window) / window_size >= window_threshold`
  with real division of integers by a positive `window_size`; this holds
  exactly when `window_threshold * window_size ≤ sum(window)`, which is
  the form used here (the trimmer never evaluates the quotient when
  `window_size = 0`: that case is the modelled exception).
-/

/-- A Biopython `SeqRecord` as used by `TrimReads.py`: identifier,
description, residue sequence and per-base Phred quality scores. -/
structure SeqRecord where
  id : String
  description : String
  seq : List Char
  quals : List Int
  deriving DecidableEq, Repr

/-- Python slice `xs[a:b]` for non-negative bounds. -/
def pySlice (xs : List α) (a b : Nat) : List α :=
  (xs.drop a).take (b - a)

/-- `phred_to_score` (TrimReads.py line 8): `ord(char) - 33`. -/
def phred_to_score (char : Char) : Int :=
  (char.toNat : Int) - 33

/-- `score_to_phred` (TrimReads.py line 12): `chr(score + 33)`. -/
def score_to_phred (score : Int) : Char :=
  Char.ofNat (score + 33).toNat

/-- Left cursor of `trim_sequence_base` (lines 21-23):
`left = 0; while left < len(quals) and quals[left] < t: left += 1`.
The loop counts the leading scores strictly below the threshold. -/
def baseLeft (t : Int) : List Int → Nat
  | [] => 0
  | q :: rest => if q < t then baseLeft t rest + 1 else 0

/-- One step of the right cursor of `trim_sequence_base` (lines 26-28),
currently at index `r` (with `r < quals.length`):
`while right >= 0 and quals[right] < t: right -= 1`. -/
def baseRightGo (quals : List Int) (t : Int) : Nat → Int
  | 0 => if quals.getD 0 0 < t then -1 else 0
  | r + 1 => if quals.getD (r + 1) 0 < t then baseRightGo quals t r else (r : Int) + 1

/-- Right cursor of `trim_sequence_base`: starts at `len(quals) - 1`
(that is `-1` for the empty list, where the loop body never runs). -/
def baseRight (quals : List Int) (t : Int) : Int :=
  match quals.length with
  | 0 => -1
  | n + 1 => baseRightGo quals t n

/-- `trim_sequence_base` (TrimReads.py lines 16-44). Returns
`(left_trim, right_trim, trimmed_record?)`; `(0, 0, none)` models the
`return 0, 0, None` discard path. -/
def trim_sequence_base (record : SeqRecord) (base_threshold : Int) :
    Int × Int × Option SeqRecord :=
  let quals := record.quals
  let left := baseLeft base_threshold quals
  let right := baseRight quals base_threshold
  if (left : Int) > right then (0, 0, none)
  else
    ((left : Int), (record.seq.length : Int) - right - 1,
      some { id := record.id
             description := record.description
             seq := pySlice record.seq left (right.toNat + 1)
             quals := pySlice quals left (right.toNat + 1) })

/-- The window test of `trim_sequence_window` (lines 55 and 63):
`sum(quals[l:l+ws]) / ws >= t`, stated in the division-free form
`t * ws ≤ sum` (exactly equivalent for `ws ≥ 1`). -/
def windowOk (quals : List Int) (t : Int) (ws l : Nat) : Bool :=
  decide (t * (ws : Int) ≤ ((quals.drop l).take ws).sum)

/-- Left scan of `trim_sequence_window` (lines 52-57) over the still
unscanned suffix of `quals`; returns the number of advances, i.e. the
final `left`. The loop guard `left <= seq_len - window_size` is
`ws ≤ length of the remaining suffix`; the guard fails on an empty
suffix for every `ws ≥ 1`. -/
def windowLeftAux (t : Int) (ws : Nat) : List Int → Nat
  | [] => 0
  | q :: rest =>
    if ws ≤ (q :: rest).length then
      if t * (ws : Int) ≤ (((q :: rest)).take ws).sum then 0
      else windowLeftAux t ws rest + 1
    else 0

/-- Final `left` of `trim_sequence_window`'s left scan, as an index into
`quals`. -/
def windowLeft (quals : List Int) (t : Int) (ws : Nat) : Nat :=
  windowLeftAux t ws quals

/-- Right scan of `trim_sequence_window` (lines 60-65), countdown from
the current `right` cursor:
`while right >= window_size: if mean of quals[right-ws:right] >= t: break; right -= 1`.
Only invoked with `ws ≥ 1` (for `ws = 0` the source raises
`ZeroDivisionError` before any loop finishes, handled in
`trim_sequence_window` itself), so the cursor never goes below `0`. -/
def windowRightGo (quals : List Int) (t : Int) (ws : Nat) : Nat → Nat
  | 0 => 0
  | r + 1 =>
    if ws ≤ r + 1 then
      if t * (ws : Int) ≤ ((quals.drop (r + 1 - ws)).take ws).sum then r + 1
      else windowRightGo quals t ws r
    else r + 1

/-- `trim_sequence_window` (TrimReads.py lines 46-81). Returns
`some (left_trim, right_trim, trimmed_record?)`, with `some (0, 0, none)`
for the discard path and `none` for the `ZeroDivisionError` raised on the
very first window mean when `window_size = 0` (the left-scan guard
`0 <= seq_len - 0` always holds, so `sum(quals[0:0]) / 0` is evaluated). -/
def trim_sequence_window (record : SeqRecord) (window_threshold : Int)
    (window_size : Nat) : Option (Int × Int × Option SeqRecord) :=
  match window_size with
  | 0 => none
  | ws + 1 =>
    let ws := ws + 1
    let quals := record.quals
    let seq_len := quals.length
    let left := windowLeft quals window_threshold ws
    let right := windowRightGo quals window_threshold ws seq_len
    if (left : Int) > (right : Int) - (ws : Int) then some (0, 0, none)
    else
      some ((left : Int), (seq_len : Int) - (right : Int),
        some { id := record.id
               description := record.description
               seq := pySlice record.seq left right
               quals := pySlice quals left right })

/-- One entry of `stats['per_sequence']` (TrimReads.py lines 119-127). -/
structure PerSeqEntry where
  id : String
  original_length : Nat
  trimmed_length : Nat
  bases_trimmed : Nat
  left_trim : Int
  right_trim : Int
  method : String
  deriving DecidableEq, Repr

/-- The `stats` object of `process_fastq` (a `defaultdict(int)` whose
counters start at `0`, plus the `per_sequence` list). -/
structure RunStats where
  total_sequences : Nat
  discarded_sequences : Nat
  total_bases_trimmed : Nat
  total_bases_remaining : Nat
  per_sequence : List PerSeqEntry
  deriving DecidableEq, Repr

/-- The trimmer dispatch of `process_fastq` (lines 98-107): base mode if
`base_threshold is not None`, else window mode if `window_threshold is
not None`; with neither, the body reads the unbound `trimmed_record`
(`NameError`), modelled as `none`.  The window trimmer's own `none`
(`ZeroDivisionError`) propagates. -/
def applyTrim (base_threshold window_threshold : Option Int) (window_size : Nat)
    (record : SeqRecord) : Option ((Int × Int × Option SeqRecord) × String) :=
  match base_threshold with
  | some t => some (trim_sequence_base record t, "base")
  | none =>
    match window_threshold with
    | some t => (trim_sequence_window record t window_size).map (fun r => (r, "window"))
    | none => none

/-- The per-record loop of `process_fastq` (lines 94-129), carrying the
running `stats` and the accumulated `output_records`. -/
def process_fastq_go (base_threshold window_threshold : Option Int)
    (window_size : Nat) (stats : RunStats) (output_records : List SeqRecord) :
    List SeqRecord → Option (RunStats × List SeqRecord)
  | [] => some (stats, output_records)
  | record :: rest =>
    let stats := { stats with total_sequences := stats.total_sequences + 1 }
    let original_length := record.seq.length
    match applyTrim base_threshold window_threshold window_size record with
    | none => none
    | some ((_, _, none), _) =>
      process_fastq_go base_threshold window_threshold window_size
        { stats with discarded_sequences := stats.discarded_sequences + 1 }
        output_records rest
    | some ((left_trim, right_trim, some trimmed_record), method) =>
      let trimmed_length := trimmed_record.seq.length
      process_fastq_go base_threshold window_threshold window_size
        { stats with
          total_bases_trimmed :=
            stats.total_bases_trimmed + (original_length - trimmed_length)
          total_bases_remaining := stats.total_bases_remaining + trimmed_length
          per_sequence := stats.per_sequence ++
            [{ id := trimmed_record.id
               original_length := original_length
               trimmed_length := trimmed_length
               bases_trimmed := original_length - trimmed_length
               left_trim := left_trim
               right_trim := right_trim
               method := method }] }
        (output_records ++ [trimmed_record]) rest

/-- `process_fastq` (TrimReads.py lines 83-135), restricted to its pure
core: the in-memory record stream in, the final statistics and the
surviving trimmed records out (file I/O and path derivation are the
external adapters).  `none` models an uncaught exception. -/
def process_fastq (base_threshold window_threshold : Option Int)
    (window_size : Nat) (records : List SeqRecord) :
    Option (RunStats × List SeqRecord) :=
  process_fastq_go base_threshold window_threshold window_size
    { total_sequences := 0, discarded_sequences := 0, total_bases_trimmed := 0
      total_bases_remaining := 0, per_sequence := [] } [] records

/-! ### Spec-side definitions for the window-discard characterisation

These follow the words of the specification (claim C2), to be compared
with the loop cursors of `trim_sequence_window`. -/

/-- The smallest left offset whose window mean meets the threshold,
among the offsets `l` with `l ≤ len - window_size` (as integers), if
any. -/
def leastWindowOffset (quals : List Int) (t : Int) (ws : Nat) : Option Nat :=
  (List.range (quals.length + 1)).find?
    (fun l => decide ((l : Int) ≤ (quals.length : Int) - (ws : Int)) &&
      windowOk quals t ws l)

/-- The largest right offset `r` with `window_size ≤ r ≤ len` whose
window `[r - window_size, r)` mean meets the threshold, if any. -/
def greatestWindowEnd (quals : List Int) (t : Int) (ws : Nat) : Option Nat :=
  (List.range (quals.length + 1)).reverse.find?
    (fun r => decide (ws ≤ r) &&
      decide (t * (ws : Int) ≤ ((quals.drop (r - ws)).take ws).sum))

/-- The claim's `L`: the smallest qualifying left offset, with
scan-exhausted value `len - window_size + 1` when none exists. -/
def specL (quals : List Int) (t : Int) (ws : Nat) : Int :=
  match leastWindowOffset quals t ws with
  | some l => (l : Int)
  | none => (quals.length : Int) - (ws : Int) + 1

/-- The claim's `R`: the largest qualifying right offset, with
scan-exhausted value `window_size - 1` when none exists. -/
def specR (quals : List Int) (t : Int) (ws : Nat) : Int :=
  match greatestWindowEnd quals t ws with
  | some r => (r : Int)
  | none => (ws : Int) - 1

/-- Amended `L`: the left loop's actual final cursor.  When no window
qualifies the loop stops at `len - window_size + 1`, except that it
never runs (cursor stays `0`) when `window_size > len`; the exhausted
value is therefore `max (len - window_size + 1) 0`. -/
def specLA (quals : List Int) (t : Int) (ws : Nat) : Int :=
  match leastWindowOffset quals t ws with
  | some l => (l : Int)
  | none => max ((quals.length : Int) - (ws : Int) + 1) 0

/-- Amended `R`: the right loop's actual final cursor.  When no window
qualifies the loop stops at `window_size - 1`, except that it never
runs (cursor stays `len`) when `window_size > len`; the exhausted value
is therefore `min (window_size - 1) len`. -/
def specRA (quals : List Int) (t : Int) (ws : Nat) : Int :=
  match greatestWindowEnd quals t ws with
  | some r => (r : Int)
  | none => min ((ws : Int) - 1) (quals.length : Int)

/-! ### Concrete reads used by the scenario claims and witnesses -/

/-- The spec's scenario read `r1`: sequence `"ACGTACGT"`, qualities
`[10, 10, 30, 30, 30, 30, 10, 10]`. -/
def readR1 : SeqRecord :=
  { id := "r1", description := "r1", seq := "ACGTACGT".data
    quals := [10, 10, 30, 30, 30, 30, 10, 10] }

/-- A read whose scores are all high (no trimming needed). -/
def readHigh : SeqRecord :=
  { id := "h", description := "h", seq := "ACGT".data
    quals := [30, 30, 30, 30] }

/-- The spec's all-low-quality read: every score `5`, threshold `20`. -/
def readLow : SeqRecord :=
  { id := "low", description := "low", seq := "ACGT".data
    quals := [5, 5, 5, 5] }

/-- The empty read. -/
def emptyRead : SeqRecord :=
  { id := "e", description := "e", seq := [], quals := [] }

/-- What both trimmers keep of `readR1` (base threshold 20, and window
threshold 25 with window size 2): slice `[2, 6)`. -/
def trimmedR1 : SeqRecord :=
  { id := "r1", description := "r1", seq := "GTAC".data
    quals := [30, 30, 30, 30] }

/-! ### Generic lemmas: first/last match of a predicate on `List.range` -/

theorem range_find?_eq_some {p : Nat → Bool} {n m : Nat} (hm : m < n)
    (hp : p m = true) (hmin : ∀ k, k < m → p k = false) :
    (List.range n).find? p = some m := by
  induction n with
  | zero => omega
  | succ n ih =>
    rw [List.range_succ, List.find?_append]
    rcases Nat.lt_or_ge m n with hlt | hge
    · rw [ih hlt]; rfl
    · have hmn : m = n := by omega
      subst hmn
      have hnone : (List.range m).find? p = none := by
        rw [List.find?_eq_none]
        intro x hx
        simp only [List.mem_range] at hx
        simp [hmin x hx]
      rw [hnone]
      simp [List.find?, hp]

theorem range_find?_eq_none {p : Nat → Bool} {n : Nat}
    (h : ∀ k, k < n → p k = false) : (List.range n).find? p = none := by
  rw [List.find?_eq_none]
  intro x hx
  simp only [List.mem_range] at hx
  simp [h x hx]

theorem range_reverse_find?_eq_some {p : Nat → Bool} {n m : Nat} (hm : m < n)
    (hp : p m = true) (hmax : ∀ k, m < k → k < n → p k = false) :
    (List.range n).reverse.find? p = some m := by
  induction n with
  | zero => omega
  | succ n ih =>
    rw [List.range_succ, List.reverse_append]
    rcases Nat.lt_or_ge m n with hlt | hge
    · have hpn : p n = false := hmax n hlt (by omega)
      simp only [List.reverse_singleton, List.singleton_append]
      rw [List.find?_cons_of_neg _ (by simp [hpn])]
      exact ih hlt (fun k hk1 hk2 => hmax k hk1 (by omega))
    · have hmn : m = n := by omega
      subst hmn
      simp only [List.reverse_singleton, List.singleton_append]
      rw [List.find?_cons_of_pos _ hp]

theorem range_reverse_find?_eq_none {p : Nat → Bool} {n : Nat}
    (h : ∀ k, k < n → p k = false) : (List.range n).reverse.find? p = none := by
  rw [List.find?_eq_none]
  intro x hx
  simp only [List.mem_reverse, List.mem_range] at hx
  simp [h x hx]

/-! ### Lemmas about the base trimmer's cursors -/

theorem baseLeft_le_length (t : Int) (quals : List Int) :
    baseLeft t quals ≤ quals.length := by
  induction quals with
  | nil => simp [baseLeft]
  | cons q rest ih =>
    simp only [baseLeft, List.length_cons]
    split <;> omega

theorem baseLeft_all_lt (t : Int) (quals : List Int) (h : ∀ q ∈ quals, q < t) :
    baseLeft t quals = quals.length := by
  induction quals with
  | nil => simp [baseLeft]
  | cons q rest ih =>
    have hq : q < t := h q (by simp)
    simp [baseLeft, hq, ih (fun x hx => h x (by simp [hx]))]

theorem baseLeft_getD (t : Int) (quals : List Int)
    (h : baseLeft t quals < quals.length) :
    t ≤ quals.getD (baseLeft t quals) 0 := by
  induction quals with
  | nil => simp at h
  | cons q rest ih =>
    by_cases hq : q < t
    · have heq : baseLeft t (q :: rest) = baseLeft t rest + 1 := by
        simp [baseLeft, hq]
      rw [heq] at h ⊢
      simp only [List.length_cons, Nat.add_lt_add_iff_right] at h
      simpa using ih h
    · have heq : baseLeft t (q :: rest) = 0 := by simp [baseLeft, hq]
      rw [heq]
      simpa using not_lt.1 hq

theorem baseLeft_eq_zero (t : Int) (quals : List Int) (hne : quals ≠ [])
    (h : ¬ quals.getD 0 0 < t) : baseLeft t quals = 0 := by
  cases quals with
  | nil => exact absurd rfl hne
  | cons q rest =>
    have hq : ¬ q < t := h
    simp [baseLeft, hq]

theorem neg_one_le_baseRightGo (quals : List Int) (t : Int) (r : Nat) :
    -1 ≤ baseRightGo quals t r := by
  induction r with
  | zero => simp only [baseRightGo]; split <;> omega
  | succ r ih => simp only [baseRightGo]; split <;> omega

theorem baseRightGo_le (quals : List Int) (t : Int) (r : Nat) :
    baseRightGo quals t r ≤ (r : Int) := by
  induction r with
  | zero => simp only [baseRightGo]; split <;> omega
  | succ r ih =>
    simp only [baseRightGo]
    split
    · omega
    · omega

theorem baseRightGo_getD (quals : List Int) (t : Int) (r : Nat)
    (h : 0 ≤ baseRightGo quals t r) :
    t ≤ quals.getD (baseRightGo quals t r).toNat 0 := by
  induction r with
  | zero =>
    by_cases hq : quals.getD 0 0 < t
    · unfold baseRightGo at h
      rw [if_pos hq] at h
      omega
    · unfold baseRightGo
      rw [if_neg hq]
      exact not_lt.1 hq
  | succ r ih =>
    by_cases hq : quals.getD (r + 1) 0 < t
    · unfold baseRightGo at h ⊢
      rw [if_pos hq] at h ⊢
      exact ih h
    · unfold baseRightGo
      rw [if_neg hq]
      have heq : ((r : Int) + 1).toNat = r + 1 := by omega
      rw [heq]
      exact not_lt.1 hq

theorem baseRightGo_all_lt (quals : List Int) (t : Int) (r : Nat)
    (hr : r < quals.length) (h : ∀ q ∈ quals, q < t) :
    baseRightGo quals t r = -1 := by
  induction r with
  | zero =>
    have hm : quals.getD 0 0 ∈ quals := by
      rw [List.getD_eq_getElem _ _ (by omega)]
      exact List.getElem_mem _
    unfold baseRightGo
    rw [if_pos (h _ hm)]
  | succ r ih =>
    have hm : quals.getD (r + 1) 0 ∈ quals := by
      rw [List.getD_eq_getElem _ _ hr]
      exact List.getElem_mem _
    unfold baseRightGo
    rw [if_pos (h _ hm)]
    exact ih (by omega)

theorem baseRightGo_stop (quals : List Int) (t : Int) (r : Nat)
    (h : ¬ quals.getD r 0 < t) : baseRightGo quals t r = (r : Int) := by
  cases r with
  | zero =>
    unfold baseRightGo
    rw [if_neg h]
    simp
  | succ r =>
    unfold baseRightGo
    rw [if_neg h]
    push_cast
    ring

theorem neg_one_le_baseRight (quals : List Int) (t : Int) :
    -1 ≤ baseRight quals t := by
  unfold baseRight
  split
  · omega
  · exact neg_one_le_baseRightGo ..

theorem baseRight_lt_length (quals : List Int) (t : Int) :
    baseRight quals t < (quals.length : Int) := by
  unfold baseRight
  split
  · next h => omega
  · next n h =>
    have := baseRightGo_le quals t n
    omega

theorem baseRight_getD (quals : List Int) (t : Int)
    (h : 0 ≤ baseRight quals t) :
    t ≤ quals.getD (baseRight quals t).toNat 0 := by
  unfold baseRight at h ⊢
  split at h
  · omega
  · exact baseRightGo_getD _ _ _ h

theorem baseRight_all_lt (quals : List Int) (t : Int)
    (h : ∀ q ∈ quals, q < t) : baseRight quals t = -1 := by
  unfold baseRight
  split
  · rfl
  · next n hn => exact baseRightGo_all_lt _ _ _ (by omega) h

/-! ### Lemmas about the window trimmer's scans -/

theorem windowLeftAux_le (t : Int) (ws : Nat) (qs : List Int) :
    windowLeftAux t ws qs ≤ qs.length := by
  induction qs with
  | nil => simp [windowLeftAux]
  | cons q rest ih =>
    simp only [windowLeftAux]
    split
    · split
      · simp
      · simp only [List.length_cons]
        omega
    · simp

theorem windowLeftAux_min (t : Int) (ws : Nat) (qs : List Int) (l : Nat)
    (hl : l < windowLeftAux t ws qs) :
    ¬ t * (ws : Int) ≤ ((qs.drop l).take ws).sum := by
  induction qs generalizing l with
  | nil => simp [windowLeftAux] at hl
  | cons q rest ih =>
    simp only [windowLeftAux] at hl
    by_cases h1 : ws ≤ (q :: rest).length
    · rw [if_pos h1] at hl
      by_cases h2 : t * (ws : Int) ≤ ((q :: rest).take ws).sum
      · rw [if_pos h2] at hl
        omega
      · rw [if_neg h2] at hl
        cases l with
        | zero => simpa using h2
        | succ l => simpa using ih l (by omega)
    · rw [if_neg h1] at hl
      omega

theorem windowLeftAux_spec (t : Int) (ws : Nat) (hws : 1 ≤ ws) (qs : List Int) :
    (windowLeftAux t ws qs + ws ≤ qs.length ∧
      t * (ws : Int) ≤ ((qs.drop (windowLeftAux t ws qs)).take ws).sum) ∨
    (windowLeftAux t ws qs : Int) = max ((qs.length : Int) - (ws : Int) + 1) 0 := by
  induction qs with
  | nil =>
    right
    simp only [windowLeftAux, List.length_nil, Nat.cast_zero]
    omega
  | cons q rest ih =>
    by_cases h1 : ws ≤ (q :: rest).length
    · by_cases h2 : t * (ws : Int) ≤ ((q :: rest).take ws).sum
      · left
        have he : windowLeftAux t ws (q :: rest) = 0 := by
          simp only [windowLeftAux]
          rw [if_pos h1, if_pos h2]
        rw [he]
        simpa using ⟨h1, h2⟩
      · have he : windowLeftAux t ws (q :: rest) = windowLeftAux t ws rest + 1 := by
          simp only [windowLeftAux]
          rw [if_pos h1, if_neg h2]
        rw [he]
        rcases ih with ⟨hle, hok⟩ | hex
        · left
          refine ⟨by simp only [List.length_cons]; omega, ?_⟩
          simpa using hok
        · right
          simp only [List.length_cons] at h1 ⊢
          push_cast at hex ⊢
          omega
    · have he : windowLeftAux t ws (q :: rest) = 0 := by
        simp only [windowLeftAux]
        rw [if_neg h1]
      right
      rw [he]
      simp only [List.length_cons] at h1 ⊢
      push_cast
      omega

theorem windowLeftAux_eq_zero (t : Int) (ws : Nat) (qs : List Int)
    (h1 : ws ≤ qs.length) (hok : t * (ws : Int) ≤ (qs.take ws).sum) :
    windowLeftAux t ws qs = 0 := by
  cases qs with
  | nil => simp [windowLeftAux]
  | cons q rest => simp [windowLeftAux, h1, hok]

theorem windowRightGo_le (quals : List Int) (t : Int) (ws r : Nat) :
    windowRightGo quals t ws r ≤ r := by
  induction r with
  | zero => simp [windowRightGo]
  | succ r ih =>
    simp only [windowRightGo]
    split
    · split
      · exact le_refl _
      · omega
    · exact le_refl _

theorem windowRightGo_max (quals : List Int) (t : Int) (ws r r' : Nat)
    (h1 : windowRightGo quals t ws r < r') (h2 : r' ≤ r) :
    ¬ t * (ws : Int) ≤ ((quals.drop (r' - ws)).take ws).sum := by
  induction r with
  | zero => omega
  | succ r ih =>
    simp only [windowRightGo] at h1
    by_cases hc : ws ≤ r + 1
    · rw [if_pos hc] at h1
      by_cases hok : t * (ws : Int) ≤ ((quals.drop (r + 1 - ws)).take ws).sum
      · rw [if_pos hok] at h1
        omega
      · rw [if_neg hok] at h1
        rcases Nat.lt_or_ge r' (r + 1) with hr' | hr'
        · exact ih h1 (by omega)
        · have : r' = r + 1 := by omega
          subst this
          exact hok
    · rw [if_neg hc] at h1
      omega

theorem windowRightGo_spec (quals : List Int) (t : Int) (ws : Nat)
    (hws : 1 ≤ ws) (r : Nat) :
    (ws ≤ windowRightGo quals t ws r ∧
      t * (ws : Int) ≤
        ((quals.drop (windowRightGo quals t ws r - ws)).take ws).sum) ∨
    (windowRightGo quals t ws r : Int) = min ((ws : Int) - 1) (r : Int) := by
  induction r with
  | zero =>
    right
    simp only [windowRightGo, Nat.cast_zero]
    omega
  | succ r ih =>
    simp only [windowRightGo]
    by_cases hc : ws ≤ r + 1
    · rw [if_pos hc]
      by_cases hok : t * (ws : Int) ≤ ((quals.drop (r + 1 - ws)).take ws).sum
      · rw [if_pos hok]
        exact Or.inl ⟨hc, hok⟩
      · rw [if_neg hok]
        rcases ih with h | h
        · exact Or.inl h
        · right
          push_cast at h ⊢
          omega
    · rw [if_neg hc]
      right
      push_cast
      omega

theorem windowRightGo_stop (quals : List Int) (t : Int) (ws r : Nat)
    (h1 : ws ≤ r)
    (hok : t * (ws : Int) ≤ ((quals.drop (r - ws)).take ws).sum) :
    windowRightGo quals t ws r = r := by
  cases r with
  | zero => simp [windowRightGo]
  | succ r =>
    simp only [windowRightGo]
    rw [if_pos h1, if_pos hok]

/-- Each score at least `t` forces the sum to be at least `t · length`. -/
theorem mul_length_le_sum (t : Int) (l : List Int) (h : ∀ q ∈ l, t ≤ q) :
    t * (l.length : Int) ≤ l.sum := by
  induction l with
  | nil => simp
  | cons q rest ih =>
    have hq : t ≤ q := h q (by simp)
    have hr := ih (fun x hx => h x (by simp [hx]))
    simp only [List.length_cons, List.sum_cons]
    push_cast
    nlinarith [hr, hq]

/-! ### The spec-side `L`/`R` agree with the loop cursors (amended form) -/

theorem specLA_eq (quals : List Int) (t : Int) (ws : Nat) (hws : 1 ≤ ws) :
    specLA quals t ws = (windowLeft quals t ws : Int) := by
  rcases windowLeftAux_spec t ws hws quals with ⟨hle, hok⟩ | hex
  · have hfind : leastWindowOffset quals t ws = some (windowLeft quals t ws) := by
      apply range_find?_eq_some
      · have := windowLeftAux_le t ws quals
        simp only [windowLeft]
        omega
      · simp only [windowOk, Bool.and_eq_true, decide_eq_true_eq]
        exact ⟨by push_cast; simp only [windowLeft]; omega, hok⟩
      · intro k hk
        have := windowLeftAux_min t ws quals k hk
        simp [windowOk, this]
    simp [specLA, hfind]
  · have hfind : leastWindowOffset quals t ws = none := by
      apply range_find?_eq_none
      intro k hk
      by_cases hkb : (k : Int) ≤ (quals.length : Int) - (ws : Int)
      · have hkw : k < windowLeft quals t ws := by
          simp only [windowLeft]
          push_cast at hex
          omega
        have := windowLeftAux_min t ws quals k hkw
        simp [windowOk, this]
      · simp [windowOk, hkb]
    simp only [specLA, hfind]
    exact hex.symm

theorem specRA_eq (quals : List Int) (t : Int) (ws : Nat) (hws : 1 ≤ ws) :
    specRA quals t ws =
      (windowRightGo quals t ws quals.length : Int) := by
  rcases windowRightGo_spec quals t ws hws quals.length with ⟨hge, hok⟩ | hex
  · have hfind : greatestWindowEnd quals t ws =
        some (windowRightGo quals t ws quals.length) := by
      apply range_reverse_find?_eq_some
      · have := windowRightGo_le quals t ws quals.length
        omega
      · simp only [Bool.and_eq_true, decide_eq_true_eq]
        exact ⟨hge, hok⟩
      · intro k hk1 hk2
        have := windowRightGo_max quals t ws quals.length k hk1 (by omega)
        simp [this]
    simp [specRA, hfind]
  · have hfind : greatestWindowEnd quals t ws = none := by
      apply range_reverse_find?_eq_none
      intro k hk
      by_cases hkb : ws ≤ k
      · have hkw : windowRightGo quals t ws quals.length < k := by
          push_cast at hex
          omega
        have := windowRightGo_max quals t ws quals.length k hkw (by omega)
        simp [this]
      · simp [hkb]
    simp only [specRA, hfind]
    exact hex.symm

theorem pySlice_length {α : Type} (xs : List α) (a b : Nat)
    (hb : b ≤ xs.length) (hab : a ≤ b) : (pySlice xs a b).length = b - a := by
  simp only [pySlice, List.length_take, List.length_drop]
  omega

theorem pySlice_getD (xs : List Int) (a b i : Nat) (hi : i < b - a)
    (hlen : a + i < xs.length) :
    (pySlice xs a b).getD i 0 = xs.getD (a + i) 0 := by
  have hlen' : i < (pySlice xs a b).length := by
    simp only [pySlice, List.length_take, List.length_drop]
    omega
  rw [List.getD_eq_getElem _ _ hlen', List.getD_eq_getElem _ _ hlen]
  simp only [pySlice]
  rw [List.getElem_take, List.getElem_drop]

theorem pySlice_zero_length {α : Type} (xs : List α) (b : Nat)
    (hb : xs.length ≤ b) : pySlice xs 0 b = xs := by
  simp only [pySlice, List.drop_zero]
  exact List.take_of_length_le (by omega)

/-! ### Unfolding lemmas for the two trimmers -/

theorem trim_base_discard (record : SeqRecord) (t : Int)
    (h : baseRight record.quals t < (baseLeft t record.quals : Int)) :
    trim_sequence_base record t = (0, 0, none) := by
  simp only [trim_sequence_base]
  rw [if_pos h]

theorem trim_base_eq_kept (record : SeqRecord) (t : Int)
    (h : (baseLeft t record.quals : Int) ≤ baseRight record.quals t) :
    trim_sequence_base record t =
      ((baseLeft t record.quals : Int),
       (record.seq.length : Int) - baseRight record.quals t - 1,
       some { id := record.id, description := record.description
              seq := pySlice record.seq (baseLeft t record.quals)
                ((baseRight record.quals t).toNat + 1)
              quals := pySlice record.quals (baseLeft t record.quals)
                ((baseRight record.quals t).toNat + 1) }) := by
  simp only [trim_sequence_base]
  rw [if_neg (not_lt.2 h)]

theorem trim_base_kept (record : SeqRecord) (t lt rt : Int) (tr : SeqRecord)
    (h : trim_sequence_base record t = (lt, rt, some tr)) :
    (baseLeft t record.quals : Int) ≤ baseRight record.quals t ∧
    lt = (baseLeft t record.quals : Int) ∧
    rt = (record.seq.length : Int) - baseRight record.quals t - 1 ∧
    tr = { id := record.id, description := record.description
           seq := pySlice record.seq (baseLeft t record.quals)
             ((baseRight record.quals t).toNat + 1)
           quals := pySlice record.quals (baseLeft t record.quals)
             ((baseRight record.quals t).toNat + 1) } := by
  rcases le_or_lt (baseLeft t record.quals : Int) (baseRight record.quals t)
    with hle | hlt
  · rw [trim_base_eq_kept record t hle] at h
    simp only [Prod.mk.injEq, Option.some.injEq] at h
    exact ⟨hle, h.1.symm, h.2.1.symm, h.2.2.symm⟩
  · rw [trim_base_discard record t hlt] at h
    simp at h

theorem trim_window_discard (record : SeqRecord) (t : Int) (ws : Nat)
    (hws : 1 ≤ ws)
    (h : (windowRightGo record.quals t ws record.quals.length : Int)
      - (ws : Int) < (windowLeft record.quals t ws : Int)) :
    trim_sequence_window record t ws = some (0, 0, none) := by
  obtain ⟨ws', rfl⟩ : ∃ k, ws = k + 1 := ⟨ws - 1, by omega⟩
  simp only [trim_sequence_window]
  rw [if_pos h]

theorem trim_window_eq_kept (record : SeqRecord) (t : Int) (ws : Nat)
    (hws : 1 ≤ ws)
    (h : (windowLeft record.quals t ws : Int) ≤
      (windowRightGo record.quals t ws record.quals.length : Int) - (ws : Int)) :
    trim_sequence_window record t ws =
      some ((windowLeft record.quals t ws : Int),
        (record.quals.length : Int)
          - (windowRightGo record.quals t ws record.quals.length : Int),
        some { id := record.id, description := record.description
               seq := pySlice record.seq (windowLeft record.quals t ws)
                 (windowRightGo record.quals t ws record.quals.length)
               quals := pySlice record.quals (windowLeft record.quals t ws)
                 (windowRightGo record.quals t ws record.quals.length) }) := by
  obtain ⟨ws', rfl⟩ : ∃ k, ws = k + 1 := ⟨ws - 1, by omega⟩
  simp only [trim_sequence_window]
  rw [if_neg (not_lt.2 h)]

theorem trim_window_kept (record : SeqRecord) (t : Int) (ws : Nat)
    (lt rt : Int) (tr : SeqRecord)
    (h : trim_sequence_window record t ws = some (lt, rt, some tr)) :
    1 ≤ ws ∧
    (windowLeft record.quals t ws : Int) ≤
      (windowRightGo record.quals t ws record.quals.length : Int) - (ws : Int) ∧
    lt = (windowLeft record.quals t ws : Int) ∧
    rt = (record.quals.length : Int)
      - (windowRightGo record.quals t ws record.quals.length : Int) ∧
    tr = { id := record.id, description := record.description
           seq := pySlice record.seq (windowLeft record.quals t ws)
             (windowRightGo record.quals t ws record.quals.length)
           quals := pySlice record.quals (windowLeft record.quals t ws)
             (windowRightGo record.quals t ws record.quals.length) } := by
  cases ws with
  | zero => simp [trim_sequence_window] at h
  | succ ws' =>
    have hws : 1 ≤ ws' + 1 := by omega
    rcases le_or_lt (windowLeft record.quals t (ws' + 1) : Int)
      ((windowRightGo record.quals t (ws' + 1) record.quals.length : Int)
        - ((ws' + 1 : Nat) : Int)) with hle | hlt
    · rw [trim_window_eq_kept record t (ws' + 1) hws hle] at h
      simp only [Option.some.injEq, Prod.mk.injEq] at h
      exact ⟨hws, hle, h.1.symm, h.2.1.symm, h.2.2.symm⟩
    · rw [trim_window_discard record t (ws' + 1) hws hlt] at h
      simp at h

theorem baseRight_last (quals : List Int) (t : Int) (hne : quals.length ≠ 0)
    (h : ¬ quals.getD (quals.length - 1) 0 < t) :
    baseRight quals t = (quals.length : Int) - 1 := by
  unfold baseRight
  split
  · omega
  · next n hn =>
    rw [hn] at h
    have h' : ¬ quals.getD n 0 < t := by simpa using h
    rw [baseRightGo_stop _ _ _ h']
    omega

/-! ### Consolidated facts about `Kept` results -/

theorem base_kept_facts (record : SeqRecord) (t lt rt : Int) (tr : SeqRecord)
    (hinv : record.seq.length = record.quals.length)
    (h : trim_sequence_base record t = (lt, rt, some tr)) :
    0 ≤ lt ∧ 0 ≤ rt ∧
    tr.seq = pySlice record.seq lt.toNat (record.seq.length - rt.toNat) ∧
    tr.quals = pySlice record.quals lt.toNat (record.quals.length - rt.toNat) ∧
    tr.seq.length = tr.quals.length ∧
    (tr.seq.length : Int) + lt + rt = (record.seq.length : Int) := by
  obtain ⟨hle, hlt, hrt, htr⟩ := trim_base_kept record t lt rt tr h
  have hl0 : (0 : Int) ≤ (baseLeft t record.quals : Int) := by positivity
  have hr0 : (0 : Int) ≤ baseRight record.quals t := le_trans hl0 hle
  have hrlt : baseRight record.quals t < (record.quals.length : Int) :=
    baseRight_lt_length record.quals t
  have hlt0 : 0 ≤ lt := by omega
  have hrt0 : 0 ≤ rt := by omega
  have harg1 : lt.toNat = baseLeft t record.quals := by omega
  have harg2 : record.seq.length - rt.toNat = (baseRight record.quals t).toNat + 1 := by
    omega
  have harg2' : record.quals.length - rt.toNat =
      (baseRight record.quals t).toNat + 1 := by omega
  have hslen : tr.seq.length = (baseRight record.quals t).toNat + 1
      - baseLeft t record.quals := by
    rw [htr]
    exact pySlice_length _ _ _ (by omega) (by omega)
  have hqlen : tr.quals.length = (baseRight record.quals t).toNat + 1
      - baseLeft t record.quals := by
    rw [htr]
    exact pySlice_length _ _ _ (by omega) (by omega)
  refine ⟨hlt0, hrt0, ?_, ?_, ?_, ?_⟩
  · rw [htr, harg1, harg2]
  · rw [htr, harg1, harg2']
  · rw [hslen, hqlen]
  · rw [hslen]
    omega

theorem window_kept_facts (record : SeqRecord) (t : Int) (ws : Nat)
    (lt rt : Int) (tr : SeqRecord)
    (hinv : record.seq.length = record.quals.length)
    (h : trim_sequence_window record t ws = some (lt, rt, some tr)) :
    0 ≤ lt ∧ 0 ≤ rt ∧
    tr.seq = pySlice record.seq lt.toNat (record.seq.length - rt.toNat) ∧
    tr.quals = pySlice record.quals lt.toNat (record.quals.length - rt.toNat) ∧
    tr.seq.length = tr.quals.length ∧
    (tr.seq.length : Int) + lt + rt = (record.seq.length : Int) := by
  obtain ⟨hws, hle, hlt, hrt, htr⟩ := trim_window_kept record t ws lt rt tr h
  have hRn : windowRightGo record.quals t ws record.quals.length ≤
      record.quals.length := windowRightGo_le ..
  have hl0 : (0 : Int) ≤ (windowLeft record.quals t ws : Int) := by positivity
  have hLR : windowLeft record.quals t ws ≤
      windowRightGo record.quals t ws record.quals.length := by omega
  have hlt0 : 0 ≤ lt := by omega
  have hrt0 : 0 ≤ rt := by omega
  have harg1 : lt.toNat = windowLeft record.quals t ws := by omega
  have harg2 : record.seq.length - rt.toNat =
      windowRightGo record.quals t ws record.quals.length := by omega
  have harg2' : record.quals.length - rt.toNat =
      windowRightGo record.quals t ws record.quals.length := by omega
  have hslen : tr.seq.length =
      windowRightGo record.quals t ws record.quals.length
        - windowLeft record.quals t ws := by
    rw [htr]
    exact pySlice_length _ _ _ (by omega) hLR
  have hqlen : tr.quals.length =
      windowRightGo record.quals t ws record.quals.length
        - windowLeft record.quals t ws := by
    rw [htr]
    exact pySlice_length _ _ _ (by omega) hLR
  refine ⟨hlt0, hrt0, ?_, ?_, ?_, ?_⟩
  · rw [htr, harg1, harg2]
  · rw [htr, harg1, harg2']
  · rw [hslen, hqlen]
  · rw [hslen]
    omega

/-! ### Claim theorems -/

/-- C1: for every Read satisfying the length invariant, a `Kept` result of
either trimmer is the contiguous slice of the original from index
`left_trim` to index `len(original) - right_trim` (both the sequence and
the qualities), and `len(trimmed) + left_trim + right_trim = len(original)`. -/
theorem trim_is_end_clipping (record : SeqRecord) (t : Int) (ws : Nat)
    (lt rt : Int) (tr : SeqRecord)
    (hinv : record.seq.length = record.quals.length) :
    (trim_sequence_base record t = (lt, rt, some tr) →
      tr.seq = pySlice record.seq lt.toNat (record.seq.length - rt.toNat) ∧
      tr.quals = pySlice record.quals lt.toNat (record.quals.length - rt.toNat) ∧
      (tr.seq.length : Int) + lt + rt = (record.seq.length : Int)) ∧
    (trim_sequence_window record t ws = some (lt, rt, some tr) →
      tr.seq = pySlice record.seq lt.toNat (record.seq.length - rt.toNat) ∧
      tr.quals = pySlice record.quals lt.toNat (record.quals.length - rt.toNat) ∧
      (tr.seq.length : Int) + lt + rt = (record.seq.length : Int)) := by
  constructor
  · intro h
    obtain ⟨-, -, h3, h4, -, h6⟩ := base_kept_facts record t lt rt tr hinv h
    exact ⟨h3, h4, h6⟩
  · intro h
    obtain ⟨-, -, h3, h4, -, h6⟩ := window_kept_facts record t ws lt rt tr hinv h
    exact ⟨h3, h4, h6⟩

/-- C9: both trimmers preserve the parallel-length invariant: a `Kept`
trimmed record has sequence and quality lists of equal length. -/
theorem trim_preserves_length_invariant (record : SeqRecord) (t : Int)
    (ws : Nat) (lt rt : Int) (tr : SeqRecord)
    (hinv : record.seq.length = record.quals.length) :
    (trim_sequence_base record t = (lt, rt, some tr) →
      tr.seq.length = tr.quals.length) ∧
    (trim_sequence_window record t ws = some (lt, rt, some tr) →
      tr.seq.length = tr.quals.length) := by
  constructor
  · intro h
    exact (base_kept_facts record t lt rt tr hinv h).2.2.2.2.1
  · intro h
    exact (window_kept_facts record t ws lt rt tr hinv h).2.2.2.2.1

/-- C10: trimming touches only `seq` and `quals`: a `Kept` result keeps
the input's `id` and `description` unchanged, for both trimmers. -/
theorem trim_preserves_id_description (record : SeqRecord) (t : Int)
    (ws : Nat) (lt rt : Int) (tr : SeqRecord) :
    (trim_sequence_base record t = (lt, rt, some tr) →
      tr.id = record.id ∧ tr.description = record.description) ∧
    (trim_sequence_window record t ws = some (lt, rt, some tr) →
      tr.id = record.id ∧ tr.description = record.description) := by
  constructor
  · intro h
    obtain ⟨-, -, -, htr⟩ := trim_base_kept record t lt rt tr h
    rw [htr]
    exact ⟨rfl, rfl⟩
  · intro h
    obtain ⟨-, -, -, -, htr⟩ := trim_window_kept record t ws lt rt tr h
    rw [htr]
    exact ⟨rfl, rfl⟩

/-- C4: a read whose every quality score is strictly below the threshold
is discarded by the base trimmer; for the empty read (which satisfies the
hypothesis vacuously) the cursors end at `0` and `-1`. -/
theorem base_all_low_discarded (record : SeqRecord) (t : Int)
    (h : ∀ q ∈ record.quals, q < t) :
    trim_sequence_base record t = (0, 0, none) ∧
    (record.quals = [] →
      baseLeft t record.quals = 0 ∧ baseRight record.quals t = -1) := by
  constructor
  · apply trim_base_discard
    rw [baseRight_all_lt _ _ h]
    have : (0 : Int) ≤ (baseLeft t record.quals : Int) := by positivity
    omega
  · intro he
    rw [he]
    exact ⟨rfl, rfl⟩

/-- C7: the quality codec round-trips: `decode (encode s) = s` for scores
`0 ≤ s ≤ 93` and `encode (decode c) = c` for characters in the Phred+33
range (code points 33 to 126). -/
theorem phred_codec_roundtrip :
    (∀ s : Int, 0 ≤ s → s ≤ 93 → phred_to_score (score_to_phred s) = s) ∧
    (∀ c : Char, 33 ≤ c.toNat → c.toNat ≤ 126 →
      score_to_phred (phred_to_score c) = c) := by
  constructor
  · intro s h0 h93
    unfold phred_to_score score_to_phred
    have hval : (s + 33).toNat < 55296 := by omega
    have heq : (Char.ofNat (s + 33).toNat).toNat = (s + 33).toNat := by
      unfold Char.ofNat
      rw [dif_pos (Or.inl hval)]
      rfl
    rw [heq]
    omega
  · intro c h33 h126
    unfold phred_to_score score_to_phred
    have heq : ((c.toNat : Int) - 33 + 33).toNat = c.toNat := by omega
    rw [heq, Char.ofNat_toNat]

/-- Witness for C1 at `readR1`, base threshold 20. -/
theorem trim_is_end_clipping_witness :
    trimmedR1.seq =
      pySlice readR1.seq (2 : Int).toNat (readR1.seq.length - (2 : Int).toNat) ∧
    trimmedR1.quals =
      pySlice readR1.quals (2 : Int).toNat (readR1.quals.length - (2 : Int).toNat) ∧
    (trimmedR1.seq.length : Int) + 2 + 2 = (readR1.seq.length : Int) :=
  (trim_is_end_clipping readR1 20 5 2 2 trimmedR1 (by decide)).1 (by decide)

/-- Witness for C9 at `readR1`, window threshold 25, window size 2. -/
theorem trim_preserves_length_invariant_witness :
    trimmedR1.seq.length = trimmedR1.quals.length :=
  (trim_preserves_length_invariant readR1 25 2 2 2 trimmedR1 (by decide)).2
    (by decide)

/-- Witness for C10 at `readR1`, base threshold 20. -/
theorem trim_preserves_id_description_witness :
    trimmedR1.id = readR1.id ∧ trimmedR1.description = readR1.description :=
  (trim_preserves_id_description readR1 20 5 2 2 trimmedR1).1 (by decide)

/-- Witness for C4 at the all-low read `readLow`, threshold 20. -/
theorem base_all_low_discarded_witness :
    trim_sequence_base readLow 20 = (0, 0, none) ∧
    (readLow.quals = [] →
      baseLeft 20 readLow.quals = 0 ∧ baseRight readLow.quals 20 = -1) :=
  base_all_low_discarded readLow 20 (by decide)

/-- Witness for C7 at score 40 and character `I`. -/
theorem phred_codec_roundtrip_witness :
    phred_to_score (score_to_phred 40) = 40 ∧
    score_to_phred (phred_to_score 'I') = 'I' :=
  ⟨phred_codec_roundtrip.1 40 (by decide) (by decide),
   phred_codec_roundtrip.2 'I' (by decide) (by decide)⟩

/-- C3 (amended): window trimming `readR1` with threshold 25 and window
size 2 keeps the slice `[2, 6)`, which is `"GTAC"`, with
`left_trim = right_trim = 2`. -/
theorem window_scenario_r1 :
    trim_sequence_window readR1 25 2 = some (2, 2, some trimmedR1) ∧
    trimmedR1.seq = "GTAC".data := by decide

/-- C3 counterexample: the kept slice `[2, 6)` of `"ACGTACGT"` is
`"GTAC"`, not the `"TACG"` the claim states. -/
theorem window_scenario_r1_counterexample :
    trim_sequence_window readR1 25 2 = some (2, 2, some trimmedR1) ∧
    trimmedR1.seq ≠ "TACG".data := by decide

/-- C2 (amended): for `window_size ≥ 1` the window trimmer discards
exactly when `L > R - window_size`, where `L` and `R` are the loops'
final cursors: the smallest qualifying left offset with exhausted value
`max (len - window_size + 1) 0`, and the largest qualifying right offset
with exhausted value `min (window_size - 1) len`.  In particular
`window_size > len` always discards. -/
theorem window_discard_iff (record : SeqRecord) (t : Int) (ws : Nat)
    (hws : 1 ≤ ws) :
    (trim_sequence_window record t ws = some (0, 0, none) ↔
      specRA record.quals t ws - (ws : Int) < specLA record.quals t ws) ∧
    ((record.quals.length : Int) < (ws : Int) →
      trim_sequence_window record t ws = some (0, 0, none)) := by
  have hL := specLA_eq record.quals t ws hws
  have hR := specRA_eq record.quals t ws hws
  constructor
  · constructor
    · intro h
      rw [hL, hR]
      by_contra hc
      rw [not_lt] at hc
      rw [trim_window_eq_kept record t ws hws (by omega)] at h
      simp at h
    · intro h
      rw [hL, hR] at h
      exact trim_window_discard record t ws hws (by omega)
  · intro hlen
    apply trim_window_discard record t ws hws
    have h1 := windowRightGo_le record.quals t ws record.quals.length
    have h2 : (0 : Int) ≤ (windowLeft record.quals t ws : Int) := by positivity
    omega

/-- Witness for C2 (amended) at `readR1`, threshold 25, window size 2. -/
theorem window_discard_iff_witness :
    ((trim_sequence_window readR1 25 2 = some (0, 0, none) ↔
      specRA readR1.quals 25 2 - 2 < specLA readR1.quals 25 2) ∧
     ((readR1.quals.length : Int) < 2 →
      trim_sequence_window readR1 25 2 = some (0, 0, none))) :=
  window_discard_iff readR1 25 2 (by decide)

/-- C2 counterexample: the claim's scan-exhausted values
(`L = len - window_size + 1`, `R = window_size - 1`) make the discard
condition fail on the empty read with window size 2, yet the code
discards it (both loop guards fail immediately, so the cursors are
`left = 0` and `right = len`). -/
theorem window_discard_iff_counterexample :
    trim_sequence_window emptyRead 20 2 = some (0, 0, none) ∧
    ¬ specR emptyRead.quals 20 2 - 2 < specL emptyRead.quals 20 2 := by decide

/-- C8: `window_size = 0` is not rejected anywhere; it reaches the window
trimmer and the mean computation `sum(window) / window_size` raises
`ZeroDivisionError` (modelled `none`), both directly and through
`process_fastq`. -/
theorem window_size_zero_divides_by_zero :
    trim_sequence_window readR1 20 0 = none ∧
    process_fastq none (some 20) 0 [readR1] = none := by decide

/-- C5 (amended): trimming is idempotent — re-trimming a `Kept` result
with the same configuration keeps it unchanged with zero trims, for both
trimmers; and a read whose every score meets the threshold is returned
unchanged with zero trims provided it is long enough to be kept
(nonempty for base mode, length at least `window_size` for window
mode). -/
theorem trim_idempotent (record : SeqRecord) (t : Int)
    (hinv : record.seq.length = record.quals.length) :
    (∀ lt rt : Int, ∀ tr : SeqRecord,
      trim_sequence_base record t = (lt, rt, some tr) →
      trim_sequence_base tr t = (0, 0, some tr)) ∧
    (∀ ws : Nat, ∀ lt rt : Int, ∀ tr : SeqRecord,
      trim_sequence_window record t ws = some (lt, rt, some tr) →
      trim_sequence_window tr t ws = some (0, 0, some tr)) ∧
    ((∀ q ∈ record.quals, t ≤ q) → record.quals ≠ [] →
      trim_sequence_base record t = (0, 0, some record)) ∧
    (∀ ws : Nat, 1 ≤ ws → ws ≤ record.quals.length →
      (∀ q ∈ record.quals, t ≤ q) →
      trim_sequence_window record t ws = some (0, 0, some record)) := by
  refine ⟨?_, ?_, ?_, ?_⟩
  · -- base idempotence
    intro lt rt tr h
    obtain ⟨hle, -, -, htr⟩ := trim_base_kept record t lt rt tr h
    have hl0 : (0 : Int) ≤ (baseLeft t record.quals : Int) := by positivity
    have hr0 : (0 : Int) ≤ baseRight record.quals t := le_trans hl0 hle
    have hrlt : baseRight record.quals t < (record.quals.length : Int) :=
      baseRight_lt_length record.quals t
    have hqlen : tr.quals.length =
        (baseRight record.quals t).toNat + 1 - baseLeft t record.quals := by
      rw [htr]
      exact pySlice_length _ _ _ (by omega) (by omega)
    have hslen : tr.seq.length =
        (baseRight record.quals t).toNat + 1 - baseLeft t record.quals := by
      rw [htr]
      exact pySlice_length _ _ _ (by omega) (by omega)
    have hm1 : 1 ≤ tr.quals.length := by omega
    have hhead : ¬ tr.quals.getD 0 0 < t := by
      have he : tr.quals.getD 0 0 = record.quals.getD (baseLeft t record.quals) 0 := by
        rw [htr]
        have := pySlice_getD record.quals (baseLeft t record.quals)
          ((baseRight record.quals t).toNat + 1) 0 (by omega) (by omega)
        simpa using this
      rw [he]
      exact not_lt.2 (baseLeft_getD t record.quals (by omega))
    have hlast : ¬ tr.quals.getD (tr.quals.length - 1) 0 < t := by
      have he : tr.quals.getD (tr.quals.length - 1) 0 =
          record.quals.getD (baseRight record.quals t).toNat 0 := by
        rw [hqlen, htr]
        have hidx : (baseRight record.quals t).toNat + 1
            - baseLeft t record.quals - 1 =
            (baseRight record.quals t).toNat - baseLeft t record.quals := by
          omega
        rw [hidx]
        have := pySlice_getD record.quals (baseLeft t record.quals)
          ((baseRight record.quals t).toNat + 1)
          ((baseRight record.quals t).toNat - baseLeft t record.quals)
          (by omega) (by omega)
        rw [this]
        congr 1
        omega
      rw [he]
      exact not_lt.2 (baseRight_getD record.quals t hr0)
    have hL0 : baseLeft t tr.quals = 0 :=
      baseLeft_eq_zero t tr.quals
        (by intro hc; rw [hc] at hm1; simp at hm1) hhead
    have hR : baseRight tr.quals t = (tr.quals.length : Int) - 1 :=
      baseRight_last tr.quals t (by omega) hlast
    have hkept := trim_base_eq_kept tr t (by rw [hL0, hR]; push_cast; omega)
    rw [hkept, hL0, hR]
    have htoNat : ((tr.quals.length : Int) - 1).toNat + 1 = tr.quals.length := by
      omega
    rw [htoNat, pySlice_zero_length tr.seq _ (by omega),
      pySlice_zero_length tr.quals _ (le_refl _)]
    simp only [Prod.mk.injEq, Option.some.injEq, Nat.cast_zero, true_and,
      and_true]
    omega
  · -- window idempotence
    intro ws lt rt tr h
    obtain ⟨hws, hle, -, -, htr⟩ := trim_window_kept record t ws lt rt tr h
    have hRn : windowRightGo record.quals t ws record.quals.length ≤
        record.quals.length := windowRightGo_le ..
    have hL0 : (0 : Int) ≤ (windowLeft record.quals t ws : Int) := by positivity
    have hwsR : ws ≤ windowRightGo record.quals t ws record.quals.length := by
      omega
    have hLwsR : windowLeft record.quals t ws + ws ≤
        windowRightGo record.quals t ws record.quals.length := by omega
    have hokL : t * (ws : Int) ≤
        ((record.quals.drop (windowLeft record.quals t ws)).take ws).sum := by
      rcases windowLeftAux_spec t ws hws record.quals with ⟨-, h2⟩ | hex
      · exact h2
      · exfalso
        have hex' : (windowLeft record.quals t ws : Int) =
            max ((record.quals.length : Int) - (ws : Int) + 1) 0 := hex
        omega
    have hokR : t * (ws : Int) ≤
        ((record.quals.drop
          (windowRightGo record.quals t ws record.quals.length - ws)).take
            ws).sum := by
      rcases windowRightGo_spec record.quals t ws hws record.quals.length with
        ⟨-, h2⟩ | hex
      · exact h2
      · exfalso
        omega
    have hqlen : tr.quals.length =
        windowRightGo record.quals t ws record.quals.length
          - windowLeft record.quals t ws := by
      rw [htr]
      exact pySlice_length _ _ _ hRn (by omega)
    have hslen : tr.seq.length =
        windowRightGo record.quals t ws record.quals.length
          - windowLeft record.quals t ws := by
      rw [htr]
      exact pySlice_length _ _ _ (by omega) (by omega)
    have htake : tr.quals.take ws =
        (record.quals.drop (windowLeft record.quals t ws)).take ws := by
      rw [htr]
      simp only [pySlice]
      rw [List.take_take]
      congr 1
      omega
    have hdrop : (tr.quals.drop (tr.quals.length - ws)).take ws =
        (record.quals.drop
          (windowRightGo record.quals t ws record.quals.length - ws)).take ws := by
      rw [hqlen, htr]
      simp only [pySlice]
      rw [List.drop_take, List.drop_drop]
      have e1 : windowRightGo record.quals t ws record.quals.length
          - windowLeft record.quals t ws -
          (windowRightGo record.quals t ws record.quals.length
            - windowLeft record.quals t ws - ws) = ws := by omega
      have e2 : windowLeft record.quals t ws +
          (windowRightGo record.quals t ws record.quals.length
            - windowLeft record.quals t ws - ws) =
          windowRightGo record.quals t ws record.quals.length - ws := by omega
      rw [e1, e2, List.take_take]
      congr 1
      omega
    have hLz : windowLeft tr.quals t ws = 0 := by
      show windowLeftAux t ws tr.quals = 0
      apply windowLeftAux_eq_zero t ws tr.quals (by omega)
      rw [htake]
      exact hokL
    have hRz : windowRightGo tr.quals t ws tr.quals.length = tr.quals.length := by
      apply windowRightGo_stop tr.quals t ws tr.quals.length (by omega)
      rw [hdrop]
      exact hokR
    have hkept := trim_window_eq_kept tr t ws hws (by rw [hLz, hRz]; push_cast; omega)
    rw [hkept, hLz, hRz]
    rw [pySlice_zero_length tr.seq _ (by omega),
      pySlice_zero_length tr.quals _ (le_refl _)]
    simp
  · -- all scores meet the threshold, base mode, nonempty read
    intro hall hne
    have hn1 : 0 < record.quals.length := List.length_pos.2 hne
    have hhead : ¬ record.quals.getD 0 0 < t := by
      apply not_lt.2
      apply hall
      rw [List.getD_eq_getElem _ _ (by omega)]
      exact List.getElem_mem _
    have hlast : ¬ record.quals.getD (record.quals.length - 1) 0 < t := by
      apply not_lt.2
      apply hall
      rw [List.getD_eq_getElem _ _ (by omega)]
      exact List.getElem_mem _
    have hL := baseLeft_eq_zero t record.quals hne hhead
    have hR := baseRight_last record.quals t (by omega) hlast
    have hkept := trim_base_eq_kept record t (by rw [hL, hR]; push_cast; omega)
    rw [hkept, hL, hR]
    have htoNat : ((record.quals.length : Int) - 1).toNat + 1 =
        record.quals.length := by omega
    rw [htoNat, pySlice_zero_length record.seq _ (by omega),
      pySlice_zero_length record.quals _ (le_refl _)]
    simp only [Prod.mk.injEq, Option.some.injEq, Nat.cast_zero, true_and,
      and_true]
    omega
  · -- all scores meet the threshold, window mode, read long enough
    intro ws hws hwslen hall
    have hokL : t * (ws : Int) ≤ (record.quals.take ws).sum := by
      have hlen : (record.quals.take ws).length = ws := by
        rw [List.length_take]
        omega
      have := mul_length_le_sum t (record.quals.take ws)
        (fun q hq => hall q (List.take_subset _ _ hq))
      rw [hlen] at this
      exact this
    have hokR : t * (ws : Int) ≤
        ((record.quals.drop (record.quals.length - ws)).take ws).sum := by
      have hlen : ((record.quals.drop (record.quals.length - ws)).take ws).length
          = ws := by
        rw [List.length_take, List.length_drop]
        omega
      have := mul_length_le_sum t
        ((record.quals.drop (record.quals.length - ws)).take ws)
        (fun q hq => hall q (List.drop_subset _ _ (List.take_subset _ _ hq)))
      rw [hlen] at this
      exact this
    have hLz : windowLeft record.quals t ws = 0 := by
      show windowLeftAux t ws record.quals = 0
      exact windowLeftAux_eq_zero t ws record.quals hwslen (by simpa using hokL)
    have hRz : windowRightGo record.quals t ws record.quals.length =
        record.quals.length :=
      windowRightGo_stop record.quals t ws record.quals.length hwslen hokR
    have hkept := trim_window_eq_kept record t ws hws (by rw [hLz, hRz]; push_cast; omega)
    rw [hkept, hLz, hRz]
    rw [pySlice_zero_length record.seq _ (by omega),
      pySlice_zero_length record.quals _ (le_refl _)]
    simp

/-- Witness for C5 at `readR1` (base threshold 20, window threshold 25
with window size 2) and at the all-high read `readHigh`. -/
theorem trim_idempotent_witness :
    trim_sequence_base trimmedR1 20 = (0, 0, some trimmedR1) ∧
    trim_sequence_window trimmedR1 25 2 = some (0, 0, some trimmedR1) ∧
    trim_sequence_base readHigh 20 = (0, 0, some readHigh) :=
  ⟨(trim_idempotent readR1 20 (by decide)).1 2 2 trimmedR1 (by decide),
   (trim_idempotent readR1 25 (by decide)).2.1 2 2 2 trimmedR1 (by decide),
   (trim_idempotent readHigh 20 (by decide)).2.2.1 (by decide) (by decide)⟩

/-- C5 counterexample: the empty read satisfies "every score meets the
threshold" vacuously, yet the base trimmer discards it instead of
returning it unchanged with zero trims. -/
theorem trim_idempotent_counterexample :
    emptyRead.quals = [] ∧
    trim_sequence_base emptyRead 0 = (0, 0, none) ∧
    trim_sequence_base emptyRead 0 ≠ (0, 0, some emptyRead) := by decide

/-- C6: the statistics contract of `process_fastq`: a discarded read
bumps `total_sequences` and `discarded_sequences` and logs nothing; a
kept read bumps `total_sequences`, adds the clipped/remaining base
counts, and appends one per-sequence entry in arrival order.  Running
three reads with only the second discarded gives `total_sequences = 3`,
`discarded_sequences = 1` and a two-entry log in original order. -/
theorem stats_contract (bt wt : Option Int) (ws : Nat) (stats : RunStats)
    (out : List SeqRecord) (record : SeqRecord) (rest : List SeqRecord) :
    (∀ lt rt : Int, ∀ method : String,
      applyTrim bt wt ws record = some ((lt, rt, none), method) →
      process_fastq_go bt wt ws stats out (record :: rest) =
        process_fastq_go bt wt ws
          { stats with
            total_sequences := stats.total_sequences + 1
            discarded_sequences := stats.discarded_sequences + 1 }
          out rest) ∧
    (∀ lt rt : Int, ∀ tr : SeqRecord, ∀ method : String,
      applyTrim bt wt ws record = some ((lt, rt, some tr), method) →
      process_fastq_go bt wt ws stats out (record :: rest) =
        process_fastq_go bt wt ws
          { stats with
            total_sequences := stats.total_sequences + 1
            total_bases_trimmed := stats.total_bases_trimmed +
              (record.seq.length - tr.seq.length)
            total_bases_remaining := stats.total_bases_remaining + tr.seq.length
            per_sequence := stats.per_sequence ++
              [{ id := tr.id
                 original_length := record.seq.length
                 trimmed_length := tr.seq.length
                 bases_trimmed := record.seq.length - tr.seq.length
                 left_trim := lt
                 right_trim := rt
                 method := method }] }
          (out ++ [tr]) rest) ∧
    process_fastq (some 20) none 5 [readHigh, readLow, readR1] =
      some ({ total_sequences := 3
              discarded_sequences := 1
              total_bases_trimmed := 4
              total_bases_remaining := 8
              per_sequence :=
                [{ id := "h", original_length := 4, trimmed_length := 4
                   bases_trimmed := 0, left_trim := 0, right_trim := 0
                   method := "base" },
                 { id := "r1", original_length := 8, trimmed_length := 4
                   bases_trimmed := 4, left_trim := 2, right_trim := 2
                   method := "base" }] },
            [{ id := "h", description := "h", seq := "ACGT".data
               quals := [30, 30, 30, 30] }, trimmedR1]) := by
  refine ⟨?_, ?_, ?_⟩
  · intro lt rt method h
    simp only [process_fastq_go]
    rw [h]
  · intro lt rt tr method h
    simp only [process_fastq_go]
    rw [h]
  · decide

/-- Witness for C6: the discarded-read step at `readLow`. -/
theorem stats_contract_witness :
    process_fastq_go (some 20) none 5
      { total_sequences := 0, discarded_sequences := 0
        total_bases_trimmed := 0, total_bases_remaining := 0
        per_sequence := [] } [] [readLow] =
      process_fastq_go (some 20) none 5
        { total_sequences := 0 + 1, discarded_sequences := 0 + 1
          total_bases_trimmed := 0, total_bases_remaining := 0
          per_sequence := [] } [] [] :=
  (stats_contract (some 20) none 5
    { total_sequences := 0, discarded_sequences := 0
      total_bases_trimmed := 0, total_bases_remaining := 0
      per_sequence := [] } [] readLow []).1 0 0 "base" (by decide)
